import Mathlib

/-!
# Pipeline: ring buffer and stages of `main.go`

A shallow embedding of `src/main.go`.

* Go `int` values are modelled by `Int`.  The only arithmetic in the program is
  `x + 1` followed by `% size` on an index that has just been used to index the
  slice `data`, so the 64-bit wrap-around is never reached: an index equal to the
  largest `int` is out of range for every slice and panics first.
* A slice is a `List Int`; indexing outside `0 ≤ i < len` and `%` by zero are run-time
  panics, modelled by `Except Abort`.
* The `for` loop of `Flush` is run with fuel (one unit per evaluation of the loop
  condition).
* A goroutine with a `select` loop is a step function on the event chosen by `select`;
  a blocking send `out <- n` is recorded by appending `n` to the list of values sent.
  The mutex and the log lines have no effect on the values and are left out.
-/

namespace Pipeline

/-- Ways in which an execution does not return normally. -/
inductive Abort where
  | indexOutOfRange
  | divideByZero
  | negativeLen
  | outOfFuel
  deriving DecidableEq, Repr

/-- Go slice read `s[i]`. -/
def index (s : List Int) (i : Int) : Except Abort Int :=
  if 0 ≤ i ∧ i < s.length then .ok (s.getD i.toNat 0) else .error .indexOutOfRange

/-- Go slice write `s[i] = v`. -/
def assign (s : List Int) (i : Int) (v : Int) : Except Abort (List Int) :=
  if 0 ≤ i ∧ i < s.length then .ok (s.set i.toNat v) else .error .indexOutOfRange

/-- Go `a % b` on `int`: the remainder of the division truncated towards zero. -/
def rem (a b : Int) : Except Abort Int :=
  if b = 0 then .error .divideByZero else .ok (Int.tmod a b)

/-- Constant `defaultBufferSize` (main.go line 18). -/
def defaultBufferSize : Int := 5

/-- Struct `RingBuffer` (main.go lines 23-29), without the mutex. -/
structure RingBuffer where
  data : List Int
  head : Int
  tail : Int
  size : Int
  deriving DecidableEq, Repr

/-- Function `NewRingBuffer` (main.go lines 32-38): `make([]int, size)` panics on a negative
length and otherwise gives `size` zeros; `head` and `tail` take the zero value. -/
def NewRingBuffer (size : Int) : Except Abort RingBuffer :=
  if size < 0 then .error .negativeLen
  else .ok { data := List.replicate size.toNat 0, head := 0, tail := 0, size := size }

/-- Method `Push` (main.go lines 41-51). -/
def RingBuffer.Push (rb : RingBuffer) (val : Int) : Except Abort RingBuffer := do
  let data ← assign rb.data rb.tail val
  let tail ← rem (rb.tail + 1) rb.size
  if tail = rb.head then
    let head ← rem (rb.head + 1) rb.size
    pure { data := data, head := head, tail := tail, size := rb.size }
  else
    pure { data := data, head := rb.head, tail := tail, size := rb.size }

/-- The loop `for rb.head != rb.tail { ... }` of `Flush` (main.go lines 64-67); `acc` is the
local slice `data`.  One unit of fuel is spent per evaluation of the loop condition. -/
def flushLoop : Nat → RingBuffer → List Int → Except Abort (List Int × RingBuffer)
  | 0, _, _ => .error .outOfFuel
  | fuel + 1, rb, acc =>
    if rb.head ≠ rb.tail then do
      let x ← index rb.data rb.head
      let head ← rem (rb.head + 1) rb.size
      flushLoop fuel { data := rb.data, head := head, tail := rb.tail, size := rb.size } (acc ++ [x])
    else
      .ok (acc, rb)

/-- Method `Flush` (main.go lines 54-69) with the fuel of its loop given explicitly.  The result
is the returned slice (`nil` is the empty list) and the buffer afterwards. -/
def RingBuffer.FlushWith (fuel : Nat) (rb : RingBuffer) : Except Abort (List Int × RingBuffer) :=
  if rb.head = rb.tail then .ok ([], rb)
  else flushLoop fuel rb []

/-- Method `Flush` (main.go lines 54-69).  After one pass of the loop body `head` lies in
`[0, |size|)` and then steps cyclically, so `|size| + 1` evaluations of the loop condition
without an exit mean that `head` has come back to a value it had before and the Go loop never
exits: `flushWith_exact` shows that this fuel gives every result that any fuel gives. -/
def RingBuffer.Flush (rb : RingBuffer) : Except Abort (List Int × RingBuffer) :=
  rb.FlushWith (rb.size.natAbs + 1)

/-- What the `select` case `n := <-in` finds: a value sent on the channel, or the channel
closed. -/
inductive Recv where
  | item (n : Int)
  | closed
  deriving DecidableEq, Repr

/-- The value bound to `n` by `n := <-in`: a receive on a closed channel of `int` yields the
zero value. -/
def Recv.value : Recv → Int
  | .item n => n
  | .closed => 0

/-- The cases of the `select` of a filter stage. -/
inductive FilterEvent where
  | input (r : Recv)
  | done
  deriving DecidableEq, Repr

/-- A filter goroutine seen from outside: the values it has sent on `out`, whether `out` has
been closed, and whether the goroutine is still in its loop. -/
structure Stage where
  out : List Int
  closed : Bool
  running : Bool
  deriving DecidableEq, Repr

/-- A stage that has just been started. -/
def Stage.start : Stage := { out := [], closed := false, running := true }

/-- One pass of the `select` loop of `filterNegative` (main.go lines 76-88); the deferred
`close(out)` runs at the `return`. -/
def filterNegativeStep (s : Stage) : FilterEvent → Stage
  | .input r =>
    let n := r.value
    if n ≥ 0 then { out := s.out ++ [n], closed := s.closed, running := s.running } else s
  | .done => { out := s.out, closed := true, running := false }

/-- One pass of the `select` loop of `filterNotDivisibleBy3` (main.go lines 97-109). -/
def filterNotDivisibleBy3Step (s : Stage) : FilterEvent → Stage
  | .input r =>
    let n := r.value
    if n ≠ 0 ∧ Int.tmod n 3 = 0 then
      { out := s.out ++ [n], closed := s.closed, running := s.running }
    else s
  | .done => { out := s.out, closed := true, running := false }

/-- The `for { select { ... } }` loop of a filter over the events it takes; a goroutine that
has returned takes no more events. -/
def runFilter (step : Stage → FilterEvent → Stage) : Stage → List FilterEvent → Stage
  | s, [] => s
  | s, e :: es => if s.running then runFilter step (step s e) es else s

/-- Function `filterNegative` (main.go lines 72-90). -/
def filterNegative (events : List FilterEvent) : Stage :=
  runFilter filterNegativeStep Stage.start events

/-- Function `filterNotDivisibleBy3` (main.go lines 93-111). -/
def filterNotDivisibleBy3 (events : List FilterEvent) : Stage :=
  runFilter filterNotDivisibleBy3Step Stage.start events

/-- The cases of the `select` of `bufferAndSend`. -/
inductive BufferEvent where
  | input (r : Recv)
  | tick
  | done
  deriving DecidableEq, Repr

/-- The goroutine `bufferAndSend` seen from outside, with its local `buffer`. -/
structure BufferStage where
  buffer : RingBuffer
  out : List Int
  closed : Bool
  running : Bool
  deriving DecidableEq, Repr

/-- One pass of the `select` loop of `bufferAndSend` (main.go lines 122-140). -/
def bufferAndSendStep (s : BufferStage) : BufferEvent → Except Abort BufferStage
  | .input r => do
    let b ← s.buffer.Push r.value
    pure { buffer := b, out := s.out, closed := s.closed, running := s.running }
  | .tick => do
    let (xs, b) ← s.buffer.Flush
    pure { buffer := b, out := s.out ++ xs, closed := s.closed, running := s.running }
  | .done => do
    let (xs, b) ← s.buffer.Flush
    pure { buffer := b, out := s.out ++ xs, closed := true, running := false }

/-- The `for { select { ... } }` loop of `bufferAndSend` over the events it takes. -/
def runBuffer : BufferStage → List BufferEvent → Except Abort BufferStage
  | s, [] => .ok s
  | s, e :: es =>
    if s.running then
      match bufferAndSendStep s e with
      | .ok s1 => runBuffer s1 es
      | .error a => .error a
    else .ok s

/-- Function `bufferAndSend` (main.go lines 114-142); the ticker only produces `tick`
events. -/
def bufferAndSend (bufferSize : Int) (events : List BufferEvent) : Except Abort BufferStage :=
  match NewRingBuffer bufferSize with
  | .ok buffer => runBuffer { buffer := buffer, out := [], closed := false, running := true } events
  | .error a => .error a

/-- A sequence of calls of `Push`, in order. -/
def pushAll : RingBuffer → List Int → Except Abort RingBuffer
  | rb, [] => .ok rb
  | rb, x :: xs =>
    match rb.Push x with
    | .ok rb1 => pushAll rb1 xs
    | .error a => .error a

/-- A call of one of the two methods of `RingBuffer`. -/
inductive Call where
  | push (val : Int)
  | flush
  deriving DecidableEq, Repr

/-- A sequence of calls of `Push` and `Flush`, in order; the slices returned by `Flush` are
dropped. -/
def callAll : RingBuffer → List Call → Except Abort RingBuffer
  | rb, [] => .ok rb
  | rb, .push v :: cs =>
    match rb.Push v with
    | .ok rb1 => callAll rb1 cs
    | .error a => .error a
  | rb, .flush :: cs =>
    match rb.Flush with
    | .ok (_, rb1) => callAll rb1 cs
    | .error a => .error a

/-! ## Definitions used to state the properties -/

/-- The invariant of the data model: the backing storage has length `size ≥ 1` and both
indices lie in `[0, size)`. -/
def RingBuffer.InRange (rb : RingBuffer) : Prop :=
  1 ≤ rb.size ∧ (rb.data.length : Int) = rb.size ∧
    0 ≤ rb.head ∧ rb.head < rb.size ∧ 0 ≤ rb.tail ∧ rb.tail < rb.size

instance (rb : RingBuffer) : Decidable rb.InRange := by
  unfold RingBuffer.InRange; infer_instance

/-- The elements a buffer holds, as the data model describes them: the `(tail - head) mod size`
cells `data[head], data[head+1 mod size], ..., data[tail-1 mod size]`, in that order. -/
def RingBuffer.stored (rb : RingBuffer) : List Int :=
  (List.range ((rb.tail - rb.head) % rb.size).toNat).map
    fun (i : Nat) => rb.data.getD ((rb.head + (i : Int)) % rb.size).toNat 0

/-- The last `k` elements of a list (the whole list when it is shorter). -/
def lastN (k : Nat) (xs : List Int) : List Int := xs.drop (xs.length - k)

/-- The cells `h, h+1, ...` (`k` of them, wrapping at `n`) of a slice. -/
def window (data : List Int) (n h k : Nat) : List Int :=
  (List.range k).map fun i => data.getD (if h + i < n then h + i else h + i - n) 0

/-- The state `Push` leaves when its indices are in range, with the remainders worked out. -/
def RingBuffer.afterPush (rb : RingBuffer) (v : Int) : RingBuffer :=
  { data := rb.data.set rb.tail.toNat v
    head := if (if rb.tail + 1 = rb.size then 0 else rb.tail + 1) = rb.head then
        (if rb.head + 1 = rb.size then 0 else rb.head + 1) else rb.head
    tail := if rb.tail + 1 = rb.size then 0 else rb.tail + 1
    size := rb.size }

/-- The state `Flush` leaves: `head` moved up to `tail`, nothing else touched. -/
def RingBuffer.drained (rb : RingBuffer) : RingBuffer :=
  { data := rb.data, head := rb.tail, tail := rb.tail, size := rb.size }

/-- The state after one pass of the loop body of `Flush`, with the remainder worked out. -/
def RingBuffer.advanced (rb : RingBuffer) : RingBuffer :=
  { data := rb.data, head := if rb.head + 1 = rb.size then 0 else rb.head + 1
    tail := rb.tail, size := rb.size }

/-- The events of a filter stage that is handed the items `xs` one after the other, with no
shutdown in between. -/
def feed (xs : List Int) : List FilterEvent := xs.map fun n => FilterEvent.input (Recv.item n)

/-- The items `bufferAndSend` receives on `in` over a run: those of the `input` events it takes
before it returns. -/
def received : List BufferEvent → List Int
  | [] => []
  | .input (.item n) :: es => n :: received es
  | .input .closed :: es => received es
  | .tick :: es => received es
  | .done :: _ => []

/-! ## Index arithmetic -/

theorem emod_wrap (a n : Int) (h0 : 0 ≤ a) (h1 : a < 2 * n) :
    a % n = if a < n then a else a - n := by
  split
  · exact Int.emod_eq_of_lt h0 ‹_›
  · have h2 : a % n = (a - n) % n := by
      conv_lhs => rw [show a = (a - n) + n by omega]
      exact Int.add_emod_self
    rw [h2]
    exact Int.emod_eq_of_lt (by omega) (by omega)

theorem emod_wrap_neg (a n : Int) (h0 : -n < a) (h1 : a < n) :
    a % n = if 0 ≤ a then a else a + n := by
  split
  · exact Int.emod_eq_of_lt ‹_› h1
  · rw [← Int.add_emod_self]
    exact Int.emod_eq_of_lt (by omega) (by omega)

theorem rem_succ (a n : Int) (h0 : 0 ≤ a) (h1 : a < n) :
    rem (a + 1) n = .ok (if a + 1 = n then 0 else a + 1) := by
  unfold rem
  have hn : n ≠ 0 := by omega
  rw [if_neg hn]
  split
  · next h => rw [h, Int.tmod_self]
  · rw [Int.tmod_eq_of_lt (by omega) (by omega)]

/-! ## Cells of the ring -/

theorem window_length (data : List Int) (n h k : Nat) : (window data n h k).length = k := by
  simp [window]

theorem window_getElem (data : List Int) (n h k i : Nat) (hi : i < (window data n h k).length) :
    (window data n h k)[i] = data.getD (if h + i < n then h + i else h + i - n) 0 := by
  simp [window]

theorem stored_eq_window (rb : RingBuffer) (hr : rb.InRange) :
    rb.stored = window rb.data rb.size.toNat rb.head.toNat
      (if rb.head ≤ rb.tail then (rb.tail - rb.head).toNat else (rb.tail - rb.head + rb.size).toNat) := by
  obtain ⟨h1, h2, h3, h4, h5, h6⟩ := hr
  unfold RingBuffer.stored window
  have hc : (rb.tail - rb.head) % rb.size
      = if 0 ≤ rb.tail - rb.head then rb.tail - rb.head else rb.tail - rb.head + rb.size :=
    emod_wrap_neg _ _ (by omega) (by omega)
  have hk : ((rb.tail - rb.head) % rb.size).toNat =
      (if rb.head ≤ rb.tail then (rb.tail - rb.head).toNat
        else (rb.tail - rb.head + rb.size).toNat) := by
    rw [hc]; split_ifs <;> omega
  rw [hk]
  apply List.map_congr_left
  intro i hi
  have hi2 : (i : Int) < rb.size := by
    have := List.mem_range.mp hi
    split_ifs at this <;> omega
  have hw := emod_wrap (rb.head + i) rb.size (by omega) (by omega)
  congr 1
  rw [hw]
  split_ifs <;> omega

/-! ## Push -/

theorem push_eq (rb : RingBuffer) (v : Int) (hr : rb.InRange) :
    rb.Push v = .ok (rb.afterPush v) := by
  obtain ⟨h1, h2, h3, h4, h5, h6⟩ := hr
  unfold RingBuffer.Push assign RingBuffer.afterPush
  rw [if_pos ⟨h5, by omega⟩, rem_succ _ _ h5 h6, rem_succ _ _ h3 h4]
  simp only [bind, Except.bind, pure, Except.pure]
  by_cases hc : (if rb.tail + 1 = rb.size then 0 else rb.tail + 1) = rb.head
  · rw [if_pos hc, if_pos hc]
  · rw [if_neg hc, if_neg hc]

theorem afterPush_inRange (rb : RingBuffer) (v : Int) (hr : rb.InRange) :
    (rb.afterPush v).InRange := by
  obtain ⟨h1, h2, h3, h4, h5, h6⟩ := hr
  unfold RingBuffer.afterPush
  refine ⟨h1, ?_, ?_, ?_, ?_, ?_⟩ <;> simp only [List.length_set] <;>
    omega

theorem lastN_length (k : Nat) (xs : List Int) : (lastN k xs).length = min k xs.length := by
  unfold lastN; simp; omega

theorem lastN_getElem (k : Nat) (xs : List Int) (i : Nat) (hi : i < (lastN k xs).length) :
    (lastN k xs)[i] = xs.getD (xs.length - k + i) 0 := by
  have hl := lastN_length k xs
  unfold lastN at hi ⊢
  rw [List.getElem_drop, List.getD_eq_getElem]

theorem getD_set_self (data : List Int) (t : Nat) (v : Int) (ht : t < data.length) :
    (data.set t v).getD t 0 = v := by
  simp [List.getD_eq_getElem?_getD, List.getElem?_set, ht]

theorem getD_set_other (data : List Int) (t j : Nat) (v : Int) (hj : t ≠ j) :
    (data.set t v).getD j 0 = data.getD j 0 := by
  simp [List.getD_eq_getElem?_getD, List.getElem?_set, hj]

theorem window_succ (data : List Int) (n h k : Nat) :
    window data n h (k + 1) =
      window data n h k ++ [data.getD (if h + k < n then h + k else h + k - n) 0] := by
  simp [window, List.range_succ]

theorem window_cons (data : List Int) (n h k : Nat) (hh : h < n) (hk : k < n) :
    window data n h (k + 1) =
      data.getD h 0 :: window data n (if h + 1 = n then 0 else h + 1) k := by
  apply List.ext_getElem
  · simp [window_length]
  · intro i hi1 hi2
    rw [window_getElem]
    rw [window_length] at hi1
    cases i with
    | zero => simp [hh]
    | succ j =>
      rw [List.getElem_cons_succ, window_getElem]
      congr 1
      split_ifs <;> omega

theorem window_set (data : List Int) (n h t c : Nat) (v : Int) (hh : h < n)
    (hc : c = if h ≤ t then t - h else t + n - h) :
    window (data.set t v) n h c = window data n h c := by
  unfold window
  apply List.map_congr_left
  intro i hi
  have := List.mem_range.mp hi
  apply getD_set_other
  split_ifs at hc ⊢ <;> omega

theorem window_push (data : List Int) (n h t c : Nat) (v : Int) (hlen : data.length = n)
    (hh : h < n) (ht : t < n) (hc : c = if h ≤ t then t - h else t + n - h) :
    window (data.set t v) n h (c + 1) = window data n h c ++ [v] := by
  rw [window_succ, window_set data n h t c v hh hc]
  congr 2
  have : (if h + c < n then h + c else h + c - n) = t := by
    split_ifs at hc ⊢ <;> omega
  rw [this]
  exact getD_set_self data t v (by omega)

theorem afterPush_stored (rb : RingBuffer) (v : Int) (hr : rb.InRange) :
    (rb.afterPush v).stored = lastN (rb.size.toNat - 1) (rb.stored ++ [v]) := by
  have hr1 := afterPush_inRange rb v hr
  rw [stored_eq_window _ hr1, stored_eq_window _ hr]
  obtain ⟨h1, h2, h3, h4, h5, h6⟩ := hr
  have hw := window_push rb.data rb.size.toNat rb.head.toNat rb.tail.toNat _ v (by omega)
    (by omega) (by omega) rfl
  have hc : (if rb.head ≤ rb.tail then (rb.tail - rb.head).toNat
      else (rb.tail - rb.head + rb.size).toNat) =
      (if rb.head.toNat ≤ rb.tail.toNat then rb.tail.toNat - rb.head.toNat
        else rb.tail.toNat + rb.size.toNat - rb.head.toNat) := by
    split_ifs <;> omega
  rw [hc, ← hw]
  simp only [RingBuffer.afterPush]
  by_cases ho : (if rb.tail + 1 = rb.size then 0 else rb.tail + 1) = rb.head
  · rw [if_pos ho, window_cons _ _ _ _ (by omega) (by split_ifs at ho ⊢ <;> omega)]
    unfold lastN
    rw [List.length_cons, window_length]
    have e1 : (if rb.head.toNat ≤ rb.tail.toNat then rb.tail.toNat - rb.head.toNat
        else rb.tail.toNat + rb.size.toNat - rb.head.toNat) + 1 - (rb.size.toNat - 1) = 1 := by
      split_ifs at ho ⊢ <;> omega
    have e2 : (if rb.head.toNat + 1 = rb.size.toNat then 0 else rb.head.toNat + 1)
        = (if rb.head + 1 = rb.size then 0 else rb.head + 1).toNat := by
      split_ifs <;> omega
    rw [e1, List.drop_one, List.tail_cons, e2]
    congr 1
    split_ifs at ho ⊢ <;> omega
  · rw [if_neg ho]
    unfold lastN
    rw [window_length]
    have e1 : (if rb.head.toNat ≤ rb.tail.toNat then rb.tail.toNat - rb.head.toNat
        else rb.tail.toNat + rb.size.toNat - rb.head.toNat) + 1 - (rb.size.toNat - 1) = 0 := by
      split_ifs at ho ⊢ <;> omega
    rw [e1, List.drop_zero]
    congr 1
    split_ifs at ho ⊢ <;> omega

/-! ## Flush -/

theorem stored_length_lt (rb : RingBuffer) (hr : rb.InRange) :
    (rb.stored.length : Int) < rb.size := by
  rw [stored_eq_window _ hr, window_length]
  obtain ⟨h1, h2, h3, h4, h5, h6⟩ := hr
  split_ifs <;> omega

theorem stored_of_head_eq_tail (rb : RingBuffer) (hr : rb.InRange) (he : rb.head = rb.tail) :
    rb.stored = [] := by
  rw [stored_eq_window _ hr, he]
  simp [window]

theorem stored_ne_nil (rb : RingBuffer) (hr : rb.InRange) (he : rb.head ≠ rb.tail) :
    rb.stored ≠ [] := by
  rw [stored_eq_window _ hr]
  obtain ⟨h1, h2, h3, h4, h5, h6⟩ := hr
  intro h
  have := congrArg List.length h
  rw [window_length] at this
  simp only [List.length_nil] at this
  split_ifs at this <;> omega

theorem advanced_inRange (rb : RingBuffer) (hr : rb.InRange) : rb.advanced.InRange := by
  obtain ⟨h1, h2, h3, h4, h5, h6⟩ := hr
  unfold RingBuffer.advanced
  refine ⟨h1, h2, ?_, ?_, h5, h6⟩ <;> simp only <;> omega

theorem stored_step (rb : RingBuffer) (hr : rb.InRange) (he : rb.head ≠ rb.tail) :
    rb.stored = rb.data.getD rb.head.toNat 0 :: rb.advanced.stored := by
  rw [stored_eq_window _ hr, stored_eq_window _ (advanced_inRange rb hr)]
  obtain ⟨h1, h2, h3, h4, h5, h6⟩ := hr
  simp only [RingBuffer.advanced]
  have e2 : (if rb.head + 1 = rb.size then 0 else rb.head + 1).toNat
      = (if rb.head.toNat + 1 = rb.size.toNat then 0 else rb.head.toNat + 1) := by
    split_ifs <;> omega
  rw [e2, ← window_cons _ _ _ _ (by omega) (by split_ifs <;> omega)]
  congr 1
  split_ifs <;> omega

theorem drained_of_head_eq_tail (rb : RingBuffer) (he : rb.head = rb.tail) : rb.drained = rb := by
  cases rb
  simp only [RingBuffer.drained] at he ⊢
  rw [he]

theorem flushLoop_inRange (fuel : Nat) :
    ∀ (rb : RingBuffer) (acc : List Int), rb.InRange → rb.stored.length < fuel →
      flushLoop fuel rb acc = .ok (acc ++ rb.stored, rb.drained) := by
  induction fuel with
  | zero => intro rb acc _ h; omega
  | succ fuel ih =>
    intro rb acc hr hf
    unfold flushLoop
    by_cases he : rb.head = rb.tail
    · rw [if_neg (by simpa using he), stored_of_head_eq_tail rb hr he, List.append_nil,
        drained_of_head_eq_tail rb he]
    · rw [if_pos he]
      have hs := stored_step rb hr he
      have hr1 := advanced_inRange rb hr
      obtain ⟨h1, h2, h3, h4, h5, h6⟩ := hr
      unfold index
      rw [if_pos ⟨h3, by omega⟩, rem_succ _ _ h3 h4]
      simp only [bind, Except.bind]
      have := ih rb.advanced (acc ++ [rb.data.getD rb.head.toNat 0]) hr1
        (by rw [hs] at hf; simpa using hf)
      unfold RingBuffer.advanced at this
      rw [this, hs]
      simp [RingBuffer.drained, RingBuffer.advanced]

theorem flushWith_inRange (fuel : Nat) (rb : RingBuffer) (hr : rb.InRange)
    (hf : rb.size ≤ fuel) : rb.FlushWith fuel = .ok (rb.stored, rb.drained) := by
  unfold RingBuffer.FlushWith
  have hl := stored_length_lt rb hr
  by_cases he : rb.head = rb.tail
  · rw [if_pos he, stored_of_head_eq_tail rb hr he, drained_of_head_eq_tail rb he]
  · rw [if_neg he, flushLoop_inRange fuel rb [] hr (by omega), List.nil_append]

theorem flush_inRange (rb : RingBuffer) (hr : rb.InRange) :
    rb.Flush = .ok (rb.stored, rb.drained) :=
  flushWith_inRange _ rb hr (by have := hr.1; omega)

theorem drained_inRange (rb : RingBuffer) (hr : rb.InRange) : rb.drained.InRange := by
  obtain ⟨h1, h2, h3, h4, h5, h6⟩ := hr
  exact ⟨h1, h2, h5, h6, h5, h6⟩

/-! ## Sequences of calls -/

theorem newRingBuffer_eq (n : Int) (hn : 0 ≤ n) :
    NewRingBuffer n = .ok { data := List.replicate n.toNat 0, head := 0, tail := 0, size := n } := by
  unfold NewRingBuffer
  rw [if_neg (by omega)]

theorem newRingBuffer_inRange (n : Int) (hn : 1 ≤ n) :
    RingBuffer.InRange { data := List.replicate n.toNat 0, head := 0, tail := 0, size := n } := by
  refine ⟨hn, ?_, ?_, ?_, ?_, ?_⟩ <;> simp only [List.length_replicate] <;> omega

theorem lastN_sublist (k : Nat) (xs : List Int) : (lastN k xs).Sublist xs :=
  List.drop_sublist _ _

theorem lastN_of_length_le (k : Nat) (xs : List Int) (h : xs.length ≤ k) : lastN k xs = xs := by
  unfold lastN
  rw [Nat.sub_eq_zero_of_le h, List.drop_zero]

theorem lastN_append_lastN (k : Nat) (a b : List Int) :
    lastN k (lastN k a ++ b) = lastN k (a ++ b) := by
  unfold lastN
  have h0 : (a ++ b).drop (a.length - k) = a.drop (a.length - k) ++ b :=
    List.drop_append_of_le_length (by omega)
  have h1 : (a ++ b).length - k
      = (a.length - k) + ((a.drop (a.length - k) ++ b).length - k) := by
    simp only [List.length_append, List.length_drop]
    omega
  rw [h1, ← List.drop_drop, h0]

theorem pushAll_stored (xs : List Int) :
    ∀ rb : RingBuffer, rb.InRange →
      ∃ rb1, pushAll rb xs = .ok rb1 ∧ rb1.InRange ∧ rb1.size = rb.size ∧
        rb1.stored = lastN (rb.size.toNat - 1) (rb.stored ++ xs) := by
  induction xs with
  | nil =>
    intro rb hr
    refine ⟨rb, rfl, hr, rfl, ?_⟩
    rw [List.append_nil, lastN_of_length_le]
    have := stored_length_lt rb hr
    omega
  | cons x xs ih =>
    intro rb hr
    obtain ⟨rb1, h1, h2, h3, h4⟩ := ih (rb.afterPush x) (afterPush_inRange rb x hr)
    refine ⟨rb1, ?_, h2, ?_, ?_⟩
    · unfold pushAll
      rw [push_eq rb x hr]
      exact h1
    · rw [h3]; rfl
    · rw [h4, afterPush_stored rb x hr]
      have : (rb.afterPush x).size = rb.size := rfl
      rw [this, lastN_append_lastN, List.append_assoc, List.singleton_append]

theorem callAll_inRange (calls : List Call) :
    ∀ rb : RingBuffer, rb.InRange →
      ∃ rb1, callAll rb calls = .ok rb1 ∧ rb1.InRange ∧ rb1.size = rb.size := by
  induction calls with
  | nil => intro rb hr; exact ⟨rb, rfl, hr, rfl⟩
  | cons c cs ih =>
    intro rb hr
    cases c with
    | push v =>
      obtain ⟨rb1, h1, h2, h3⟩ := ih (rb.afterPush v) (afterPush_inRange rb v hr)
      refine ⟨rb1, ?_, h2, h3⟩
      unfold callAll
      rw [push_eq rb v hr]
      exact h1
    | flush =>
      obtain ⟨rb1, h1, h2, h3⟩ := ih rb.drained (drained_inRange rb hr)
      refine ⟨rb1, ?_, h2, h3⟩
      unfold callAll
      rw [flush_inRange rb hr]
      exact h1

/-! ## The filter stages -/

theorem runFilter_negative_feed (xs : List Int) :
    ∀ s : Stage, s.running = true →
      runFilter filterNegativeStep s (feed xs) =
        { out := s.out ++ xs.filter (fun n => decide (n ≥ 0)), closed := s.closed,
          running := true } := by
  induction xs with
  | nil => intro s hs; cases s; simp_all [feed, runFilter]
  | cons x xs ih =>
    intro s hs
    unfold feed at ih ⊢
    rw [List.map_cons, runFilter, if_pos hs]
    by_cases hx : x ≥ 0
    · have : filterNegativeStep s (.input (.item x))
          = { out := s.out ++ [x], closed := s.closed, running := s.running } := by
        simp [filterNegativeStep, Recv.value, hx]
      rw [this, ih { out := s.out ++ [x], closed := s.closed, running := s.running } hs]
      simp [List.filter_cons, hx]
    · have : filterNegativeStep s (.input (.item x)) = s := by
        simp [filterNegativeStep, Recv.value, hx]
      rw [this, ih _ hs]
      simp [List.filter_cons, hx]

theorem runFilter_div3_feed (xs : List Int) :
    ∀ s : Stage, s.running = true →
      runFilter filterNotDivisibleBy3Step s (feed xs) =
        { out := s.out ++ xs.filter (fun n => decide (n ≠ 0 ∧ Int.tmod n 3 = 0)),
          closed := s.closed, running := true } := by
  induction xs with
  | nil => intro s hs; cases s; simp_all [feed, runFilter]
  | cons x xs ih =>
    intro s hs
    unfold feed at ih ⊢
    rw [List.map_cons, runFilter, if_pos hs]
    by_cases hx : x ≠ 0 ∧ Int.tmod x 3 = 0
    · have : filterNotDivisibleBy3Step s (.input (.item x))
          = { out := s.out ++ [x], closed := s.closed, running := s.running } := by
        simp only [filterNotDivisibleBy3Step, Recv.value]
        rw [if_pos hx]
      rw [this, ih { out := s.out ++ [x], closed := s.closed, running := s.running } hs]
      simp [List.filter_cons, hx]
    · have : filterNotDivisibleBy3Step s (.input (.item x)) = s := by
        simp only [filterNotDivisibleBy3Step, Recv.value]
        rw [if_neg hx]
      rw [this, ih _ hs]
      simp only [List.filter_cons, hx, decide_False]
      simp

/-! ## The buffer stage -/

theorem step_input (s : BufferStage) (r : Recv) (hr : s.buffer.InRange) :
    bufferAndSendStep s (.input r) = .ok
      { buffer := s.buffer.afterPush r.value, out := s.out, closed := s.closed,
        running := s.running } := by
  simp only [bufferAndSendStep]
  rw [push_eq _ _ hr]
  rfl

theorem step_tick (s : BufferStage) (hr : s.buffer.InRange) :
    bufferAndSendStep s .tick = .ok
      { buffer := s.buffer.drained, out := s.out ++ s.buffer.stored, closed := s.closed,
        running := s.running } := by
  simp only [bufferAndSendStep]
  rw [flush_inRange _ hr]
  rfl

theorem step_done (s : BufferStage) (hr : s.buffer.InRange) :
    bufferAndSendStep s .done = .ok
      { buffer := s.buffer.drained, out := s.out ++ s.buffer.stored, closed := true,
        running := false } := by
  simp only [bufferAndSendStep]
  rw [flush_inRange _ hr]
  rfl

theorem runBuffer_stopped (s : BufferStage) (events : List BufferEvent)
    (hs : s.running = false) : runBuffer s events = .ok s := by
  cases events with
  | nil => rfl
  | cons e es => unfold runBuffer; rw [if_neg (by simp [hs])]

theorem runBuffer_sublist (events : List BufferEvent) :
    ∀ s : BufferStage, s.buffer.InRange → (∀ e ∈ events, e ≠ .input .closed) →
      ∃ s1 l, runBuffer s events = .ok s1 ∧ s1.buffer.InRange ∧
        l.Sublist (s.buffer.stored ++ received events) ∧
        s1.out ++ s1.buffer.stored = s.out ++ l := by
  induction events with
  | nil =>
    intro s hr _
    exact ⟨s, s.buffer.stored, rfl, hr, by simp [received], rfl⟩
  | cons e es ih =>
    intro s hr ho
    have ho1 : ∀ e ∈ es, e ≠ BufferEvent.input Recv.closed :=
      fun e he => ho e (List.mem_cons_of_mem _ he)
    by_cases hs : s.running = true
    · unfold runBuffer
      rw [if_pos hs]
      cases e with
      | input r =>
        cases r with
        | closed => exact absurd rfl (ho _ (List.mem_cons_self _ _))
        | item n =>
          rw [step_input s _ hr]
          obtain ⟨s1, l, h1, h2, h3, h4⟩ := ih
            { buffer := s.buffer.afterPush n, out := s.out, closed := s.closed,
              running := s.running } (afterPush_inRange _ _ hr) ho1
          refine ⟨s1, l, h1, h2, ?_, h4⟩
          simp only [afterPush_stored _ _ hr] at h3
          refine h3.trans ?_
          have e1 : s.buffer.stored ++ received (.input (.item n) :: es)
              = (s.buffer.stored ++ [n]) ++ received es := by
            simp [received]
          rw [e1]
          exact List.Sublist.append (lastN_sublist _ _) (List.Sublist.refl _)
      | tick =>
        rw [step_tick s hr]
        obtain ⟨s1, l, h1, h2, h3, h4⟩ := ih
          { buffer := s.buffer.drained, out := s.out ++ s.buffer.stored, closed := s.closed,
            running := s.running } (drained_inRange _ hr) ho1
        refine ⟨s1, s.buffer.stored ++ l, h1, h2, ?_, ?_⟩
        · simp only [stored_of_head_eq_tail _ (drained_inRange _ hr) rfl, List.nil_append] at h3
          exact List.Sublist.append (List.Sublist.refl _) h3
        · rw [h4, List.append_assoc]
      | done =>
        rw [step_done s hr]
        refine ⟨_, s.buffer.stored, runBuffer_stopped _ es rfl, drained_inRange _ hr, ?_, ?_⟩
        · simp [received]
        · simp only [stored_of_head_eq_tail _ (drained_inRange _ hr) rfl, List.append_nil]
    · refine ⟨s, s.buffer.stored, runBuffer_stopped s _ (by simpa using hs), hr, ?_, rfl⟩
      exact List.sublist_append_left _ _

theorem runBuffer_running (events : List BufferEvent) :
    ∀ s : BufferStage, s.buffer.InRange → s.running = true →
      (∀ e ∈ events, e ≠ BufferEvent.done) →
      ∃ s1, runBuffer s events = .ok s1 ∧ s1.buffer.InRange ∧ s1.running = true ∧
        s1.closed = s.closed := by
  induction events with
  | nil => intro s hr hs _; exact ⟨s, rfl, hr, hs, rfl⟩
  | cons e es ih =>
    intro s hr hs hd
    have hd1 : ∀ e ∈ es, e ≠ BufferEvent.done := fun e he => hd e (List.mem_cons_of_mem _ he)
    unfold runBuffer
    rw [if_pos hs]
    cases e with
    | input r =>
      rw [step_input s r hr]
      exact ih _ (afterPush_inRange _ _ hr) hs hd1
    | tick =>
      rw [step_tick s hr]
      exact ih _ (drained_inRange _ hr) hs hd1
    | done => exact absurd rfl (hd _ (List.mem_cons_self _ _))

theorem runBuffer_snoc (events : List BufferEvent) (e : BufferEvent) :
    ∀ s s1 : BufferStage, runBuffer s events = .ok s1 →
      runBuffer s (events ++ [e]) = if s1.running then bufferAndSendStep s1 e else .ok s1 := by
  induction events with
  | nil =>
    intro s s1 h
    cases h
    simp only [List.nil_append, runBuffer]
    split
    · cases bufferAndSendStep s e <;> rfl
    · rfl
  | cons e1 es ih =>
    intro s s1 h
    rw [List.cons_append]
    unfold runBuffer at h ⊢
    by_cases hs : s.running = true
    · rw [if_pos hs] at h ⊢
      cases hstep : bufferAndSendStep s e1 with
      | error a => rw [hstep] at h; cases h
      | ok s2 =>
        rw [hstep] at h
        exact ih s2 s1 h
    · rw [if_neg hs] at h ⊢
      cases h
      rw [if_neg hs]

theorem bufferAndSend_running (C : Int) (hC : 1 ≤ C) (events : List BufferEvent)
    (hrun : ∀ e ∈ events, e ≠ BufferEvent.done) :
    ∃ s, bufferAndSend C events = .ok s ∧ s.buffer.InRange ∧ s.running = true ∧
      s.closed = false ∧
      ∀ e, bufferAndSend C (events ++ [e]) = bufferAndSendStep s e := by
  obtain ⟨s, h1, h2, h3, h4⟩ := runBuffer_running events
    { buffer := { data := List.replicate C.toNat 0, head := 0, tail := 0, size := C },
      out := [], closed := false, running := true } (newRingBuffer_inRange C hC) rfl hrun
  refine ⟨s, ?_, h2, h3, h4, fun e => ?_⟩
  · unfold bufferAndSend
    rw [newRingBuffer_eq C (by omega)]
    exact h1
  · unfold bufferAndSend
    rw [newRingBuffer_eq C (by omega)]
    simp only
    rw [runBuffer_snoc events e _ s h1, if_pos h3]

/-! ## Fuel of the loop of Flush -/

theorem tmod_natAbs (a b : Int) : a.tmod b = a.tmod (b.natAbs : Int) := by
  by_cases hb : 0 ≤ b
  · rw [Int.natAbs_of_nonneg hb]
  · have : (b.natAbs : Int) = -b := by omega
    rw [this, Int.tmod_neg]

theorem rem_succ_natAbs (a b : Int) (h0 : 0 ≤ a) (h1 : a < b.natAbs) :
    rem (a + 1) b = .ok (if a + 1 = b.natAbs then 0 else a + 1) := by
  unfold rem
  rw [if_neg (by omega), tmod_natAbs]
  split
  · next h => rw [h, Int.tmod_self]
  · rw [Int.tmod_eq_of_lt (by omega) (by omega)]

theorem rem_range (a b : Int) (h0 : 0 ≤ a) (hb : b ≠ 0) :
    ∃ r, rem a b = .ok r ∧ 0 ≤ r ∧ r < b.natAbs := by
  refine ⟨a.tmod b, ?_, Int.tmod_nonneg _ h0, ?_⟩
  · unfold rem; rw [if_neg hb]
  · rw [tmod_natAbs]
    exact Int.tmod_lt_of_pos _ (by omega)

theorem flushLoop_mono (fuel : Nat) :
    ∀ (rb : RingBuffer) (acc : List Int) (r : Except Abort (List Int × RingBuffer)),
      flushLoop fuel rb acc = r → r ≠ .error .outOfFuel →
      ∀ k, flushLoop (fuel + k) rb acc = r := by
  induction fuel with
  | zero => intro rb acc r h hr; exact absurd h.symm hr
  | succ fuel ih =>
    intro rb acc r h hr k
    rw [Nat.add_right_comm]
    unfold flushLoop at h ⊢
    by_cases he : rb.head ≠ rb.tail
    · rw [if_pos he] at h ⊢
      cases hx : index rb.data rb.head with
      | error a => rw [hx] at h; exact h
      | ok x =>
        cases hm : rem (rb.head + 1) rb.size with
        | error a => rw [hx, hm] at h; exact h
        | ok m =>
          rw [hx, hm] at h
          exact ih _ _ r h hr k
    · rw [if_neg he] at h ⊢
      exact h

theorem flushLoop_cycle (n : Nat) (data : List Int) (tail size : Int)
    (hn : size.natAbs = n)
    (hall : ∀ x : Nat, x < n → (x : Int) ≠ tail ∧ x < data.length) (fuel : Nat) :
    ∀ (head : Int) (acc : List Int), 0 ≤ head → head < n →
      flushLoop fuel { data := data, head := head, tail := tail, size := size } acc
        = .error .outOfFuel := by
  induction fuel with
  | zero => intro head acc _ _; rfl
  | succ fuel ih =>
    intro head acc h0 h1
    obtain ⟨ha, hb⟩ := hall head.toNat (by omega)
    unfold flushLoop
    simp only
    rw [if_pos (by omega)]
    unfold index
    rw [if_pos ⟨h0, by omega⟩, rem_succ_natAbs _ _ h0 (by omega)]
    simp only [bind, Except.bind]
    exact ih _ _ (by split_ifs <;> omega) (by split_ifs <;> omega)

theorem flushLoop_visits (n : Nat) (data : List Int) (tail size : Int)
    (hn : size.natAbs = n) (k : Nat) :
    ∀ (head : Int) (acc : List Int), 0 ≤ head → head < n → k ≤ n →
      flushLoop k { data := data, head := head, tail := tail, size := size } acc
        = .error .outOfFuel →
      ∀ j : Nat, j < k →
        ((if head + j < n then head + j else head + j - n) ≠ tail) ∧
        (if head + j < n then head + j else head + j - n) < data.length := by
  induction k with
  | zero => intro head acc _ _ _ _ j hj; omega
  | succ k ih =>
    intro head acc h0 h1 hk h j hj
    unfold flushLoop at h
    simp only at h
    by_cases he : head ≠ tail
    · rw [if_pos he] at h
      unfold index at h
      by_cases hi : 0 ≤ head ∧ head < data.length
      · rw [if_pos hi, rem_succ_natAbs _ _ h0 (by omega)] at h
        simp only [bind, Except.bind] at h
        have hrec := ih _ _ (by split_ifs <;> omega) (by split_ifs <;> omega) (by omega) h
        cases j with
        | zero =>
          simp only [Nat.cast_zero, add_zero, h1, if_true]
          exact ⟨he, hi.2⟩
        | succ i =>
          have e : (if (if head + 1 = (size.natAbs : Int) then 0 else head + 1) + (i : Int) < n
                then (if head + 1 = (size.natAbs : Int) then 0 else head + 1) + (i : Int)
                else (if head + 1 = (size.natAbs : Int) then 0 else head + 1) + (i : Int) - n)
              = (if head + ((i + 1 : Nat) : Int) < n then head + ((i + 1 : Nat) : Int)
                else head + ((i + 1 : Nat) : Int) - n) := by
            simp only [Nat.cast_add, Nat.cast_one]
            split_ifs <;> omega
          have := hrec i (by omega)
          rw [e] at this
          exact this
      · rw [if_neg hi] at h
        simp only [bind, Except.bind] at h
        cases h
    · rw [if_neg he] at h
      cases h

theorem flushLoop_exact (rb : RingBuffer) (acc : List Int)
    (h : flushLoop (rb.size.natAbs + 1) rb acc = .error .outOfFuel) :
    ∀ fuel, flushLoop fuel rb acc = .error .outOfFuel := by
  unfold flushLoop at h
  by_cases he : rb.head ≠ rb.tail
  · rw [if_pos he] at h
    by_cases hi : 0 ≤ rb.head ∧ rb.head < rb.data.length
    · have hx : index rb.data rb.head = .ok (rb.data.getD rb.head.toNat 0) := by
        unfold index; rw [if_pos hi]
      rw [hx] at h
      by_cases hs : rb.size = 0
      · have hm : rem (rb.head + 1) rb.size = .error .divideByZero := by
          unfold rem; rw [if_pos hs]
        rw [hm] at h
        cases h
      · obtain ⟨r, hm, hr0, hr1⟩ := rem_range (rb.head + 1) rb.size (by omega) hs
        rw [hm] at h
        simp only [bind, Except.bind] at h
        have hv := flushLoop_visits rb.size.natAbs rb.data rb.tail rb.size rfl rb.size.natAbs
          r _ hr0 hr1 (Nat.le_refl _) h
        have hall : ∀ x : Nat, x < rb.size.natAbs → (x : Int) ≠ rb.tail ∧ x < rb.data.length := by
          intro x hx
          have hj := hv (if r.toNat ≤ x then x - r.toNat else x + rb.size.natAbs - r.toNat)
            (by split_ifs <;> omega)
          have e : (if r + ((if r.toNat ≤ x then x - r.toNat else x + rb.size.natAbs - r.toNat : Nat) : Int)
                < rb.size.natAbs
              then r + ((if r.toNat ≤ x then x - r.toNat else x + rb.size.natAbs - r.toNat : Nat) : Int)
              else r + ((if r.toNat ≤ x then x - r.toNat else x + rb.size.natAbs - r.toNat : Nat) : Int)
                - rb.size.natAbs) = (x : Int) := by
            split_ifs <;> omega
          rw [e] at hj
          exact ⟨hj.1, by exact_mod_cast hj.2⟩
        intro fuel
        cases fuel with
        | zero => rfl
        | succ fuel =>
          unfold flushLoop
          rw [if_pos he, hx, hm]
          simp only [bind, Except.bind]
          exact flushLoop_cycle rb.size.natAbs rb.data rb.tail rb.size rfl hall fuel r _ hr0 hr1
    · have hx : index rb.data rb.head = .error .indexOutOfRange := by
        unfold index; rw [if_neg hi]
      rw [hx] at h
      cases h
  · rw [if_neg he] at h
    cases h

theorem flushWith_exact (rb : RingBuffer) (fuel : Nat) (r : Except Abort (List Int × RingBuffer))
    (h : rb.FlushWith fuel = r) (hr : r ≠ .error .outOfFuel) : rb.Flush = r := by
  unfold RingBuffer.Flush
  unfold RingBuffer.FlushWith at h ⊢
  by_cases he : rb.head = rb.tail
  · rw [if_pos he] at h ⊢
    exact h
  · rw [if_neg he] at h ⊢
    by_cases hf : flushLoop (rb.size.natAbs + 1) rb [] = .error .outOfFuel
    · exact absurd ((flushLoop_exact rb [] hf fuel).symm.trans h).symm hr
    · have h1 := flushLoop_mono _ rb [] _ rfl hf fuel
      have h2 := flushLoop_mono _ rb [] r h hr (rb.size.natAbs + 1)
      rw [Nat.add_comm] at h2
      rw [← h1, h2]

/-! ## The properties of the specification -/

/-- C1, evaluated on the example of the spec: a buffer made by `NewRingBuffer(3)` that is pushed
`1, 2, 3, 4, 5` flushes `[4, 5]`; the element `3` is gone although only three slots were ever
needed for `[3, 4, 5]`, and already after three pushes the element `1` has been dropped. -/
theorem overflow_eviction_size3 :
    (NewRingBuffer 3 >>= fun rb => pushAll rb [1, 2, 3, 4, 5] >>= fun rb1 => rb1.Flush)
      = .ok ([4, 5], RingBuffer.mk [4, 5, 3] 2 2 3) ∧
    (NewRingBuffer 3 >>= fun rb => pushAll rb [1, 2, 3] >>= fun rb1 => rb1.Flush)
      = .ok ([2, 3], RingBuffer.mk [1, 2, 3] 0 0 3) := by
  constructor <;> rfl

/-- C2. Fed a finite sequence of integers with no shutdown in between, `filterNegative`
forwards exactly the items `n ≥ 0` in input order, `filterNotDivisibleBy3` forwards exactly the
items with `n ≠ 0` and `n % 3 == 0` (Go remainder) in input order, and the two in series forward
exactly the items with `n > 0` that are divisible by 3, order preserved; the stream
`[-5, 0, 3, 4, 9, -9, 12]` comes out of both stages as `[3, 9, 12]`. -/
theorem filter_correctness (xs : List Int) :
    (filterNegative (feed xs)).out = xs.filter (fun n => decide (n ≥ 0)) ∧
    (filterNotDivisibleBy3 (feed xs)).out
      = xs.filter (fun n => decide (n ≠ 0 ∧ Int.tmod n 3 = 0)) ∧
    (filterNotDivisibleBy3 (feed (filterNegative (feed xs)).out)).out
      = xs.filter (fun n => decide (n > 0 ∧ 3 ∣ n)) ∧
    (filterNotDivisibleBy3 (feed (filterNegative (feed [-5, 0, 3, 4, 9, -9, 12])).out)).out
      = [3, 9, 12] := by
  have h1 := runFilter_negative_feed xs Stage.start rfl
  have h2 := runFilter_div3_feed xs Stage.start rfl
  refine ⟨?_, ?_, ?_, by decide⟩
  · unfold filterNegative; rw [h1]; simp [Stage.start]
  · unfold filterNotDivisibleBy3; rw [h2]; simp [Stage.start]
  · unfold filterNegative filterNotDivisibleBy3
    rw [h1, runFilter_div3_feed _ Stage.start rfl]
    simp only [Stage.start, List.nil_append, List.filter_filter]
    apply List.filter_congr
    intro n _
    have hd : Int.tmod n 3 = 0 ↔ (3 : Int) ∣ n :=
      ⟨Int.dvd_of_tmod_eq_zero, fun h => by
        obtain ⟨k, rfl⟩ := h
        exact Int.mul_tmod_right 3 k⟩
    by_cases h3 : (3 : Int) ∣ n
    · simp only [hd, h3, and_true, Bool.decide_and, decide_True, Bool.and_true, Bool.true_and]
      rw [← Bool.decide_and, decide_eq_decide]
      omega
    · simp [hd, h3]

/-- C3. In every state with `size = len(data) ≥ 1` and `0 ≤ head, tail < size`, `Flush`
terminates (any fuel of at least `size` gives the same result) and returns the cells
`data[head], data[head+1 mod size], ..., data[tail-1 mod size]` in that order, which are
`(tail - head) mod size` elements; it leaves `head = tail` with `tail`, `size` and `data`
unchanged.  When `head = tail` already it returns the empty slice and changes nothing, so a
`Flush` right after a `Flush` returns the empty slice. -/
theorem flush_contract (rb : RingBuffer) (hsize : 1 ≤ rb.size)
    (hlen : (rb.data.length : Int) = rb.size) (hhead : 0 ≤ rb.head ∧ rb.head < rb.size)
    (htail : 0 ≤ rb.tail ∧ rb.tail < rb.size) :
    (∀ fuel : Nat, rb.size ≤ fuel → rb.FlushWith fuel = rb.Flush) ∧
    rb.Flush = .ok
      ((List.range ((rb.tail - rb.head) % rb.size).toNat).map
          (fun (i : Nat) => rb.data.getD ((rb.head + (i : Int)) % rb.size).toNat 0),
        { data := rb.data, head := rb.tail, tail := rb.tail, size := rb.size }) ∧
    (∀ i : Nat, (i : Int) < (rb.tail - rb.head) % rb.size →
      0 ≤ (rb.head + (i : Int)) % rb.size ∧ (rb.head + (i : Int)) % rb.size < rb.data.length) ∧
    (rb.head = rb.tail → rb.Flush = .ok ([], rb)) ∧
    (∀ out rb1, rb.Flush = .ok (out, rb1) → rb1.Flush = .ok ([], rb1)) := by
  have hr : rb.InRange := ⟨hsize, hlen, hhead.1, hhead.2, htail.1, htail.2⟩
  have hf := flush_inRange rb hr
  refine ⟨fun fuel hfuel => ?_, hf, fun i _ => ?_, fun he => ?_, fun out rb1 h => ?_⟩
  · rw [hf, flushWith_inRange fuel rb hr hfuel]
  · rw [hlen]
    exact ⟨Int.emod_nonneg _ (by omega), Int.emod_lt_of_pos _ (by omega)⟩
  · rw [hf, stored_of_head_eq_tail rb hr he, drained_of_head_eq_tail rb he]
  · rw [hf] at h
    cases h
    rw [flush_inRange _ (drained_inRange rb hr), stored_of_head_eq_tail _ (drained_inRange rb hr) rfl,
      drained_of_head_eq_tail _ rfl]

theorem flush_contract_witness :
    (RingBuffer.mk [4, 5, 3] 2 1 3).Flush = .ok ([3, 4], RingBuffer.mk [4, 5, 3] 1 1 3) :=
  (flush_contract (RingBuffer.mk [4, 5, 3] 2 1 3) (by decide) (by decide) (by decide)
    (by decide)).2.1

/-- C4. For every size `N ≥ 1`, `NewRingBuffer(N)` followed by any finite sequence of `Push`
and `Flush` calls runs without a panic and ends in a state with `0 ≤ head < N`,
`0 ≤ tail < N` and `len(data) = size = N`; from that state the next `Push` (of any value) and
the next `Flush` return normally as well. -/
theorem index_invariant (N : Int) (hN : 1 ≤ N) (calls : List Call) :
    ∃ rb0 rb, NewRingBuffer N = .ok rb0 ∧ callAll rb0 calls = .ok rb ∧
      0 ≤ rb.head ∧ rb.head < N ∧ 0 ≤ rb.tail ∧ rb.tail < N ∧
      (rb.data.length : Int) = N ∧ rb.size = N ∧
      (∀ v : Int, ∃ rb1, rb.Push v = .ok rb1) ∧ (∃ r, rb.Flush = .ok r) := by
  obtain ⟨rb, h1, h2, h3⟩ := callAll_inRange calls _ (newRingBuffer_inRange N hN)
  simp only at h3
  refine ⟨_, rb, newRingBuffer_eq N (by omega), h1, ?_⟩
  have ⟨a1, a2, a3, a4, a5, a6⟩ := h2
  refine ⟨a3, by omega, a5, by omega, by omega, h3, fun v => ⟨_, push_eq rb v h2⟩,
    ⟨_, flush_inRange rb h2⟩⟩

theorem index_invariant_witness :
    ∃ rb0 rb, NewRingBuffer 3 = .ok rb0 ∧
      callAll rb0 [Call.push 1, Call.push 2, Call.flush, Call.push 3, Call.push 4] = .ok rb ∧
      0 ≤ rb.head ∧ rb.head < 3 ∧ 0 ≤ rb.tail ∧ rb.tail < 3 ∧
      (rb.data.length : Int) = 3 ∧ rb.size = 3 ∧
      (∀ v : Int, ∃ rb1, rb.Push v = .ok rb1) ∧ (∃ r, rb.Flush = .ok r) :=
  index_invariant 3 (by decide) [Call.push 1, Call.push 2, Call.flush, Call.push 3, Call.push 4]

/-- C5. Started with a buffer of size `C ≥ 1` and run over any finite trace of events (input
item, timer tick, shutdown) whose input channel is never closed, `bufferAndSend` returns
normally and the values it has sent on its output form a subsequence of the items it received:
nothing is sent twice, nothing is invented, and the order is kept. -/
theorem fifo_preservation (C : Int) (hC : 1 ≤ C) (events : List BufferEvent)
    (hopen : ∀ e ∈ events, e ≠ BufferEvent.input Recv.closed) :
    ∃ s, bufferAndSend C events = .ok s ∧ s.out.Sublist (received events) := by
  obtain ⟨s1, l, h1, _, h3, h4⟩ := runBuffer_sublist events
    { buffer := { data := List.replicate C.toNat 0, head := 0, tail := 0, size := C },
      out := [], closed := false, running := true } (newRingBuffer_inRange C hC) hopen
  refine ⟨s1, ?_, ?_⟩
  · unfold bufferAndSend
    rw [newRingBuffer_eq C (by omega)]
    exact h1
  · rw [stored_of_head_eq_tail _ (newRingBuffer_inRange C hC) rfl] at h3
    simp only [List.nil_append] at h3 h4
    exact (h4 ▸ List.sublist_append_left s1.out s1.buffer.stored).trans h3

theorem fifo_preservation_witness :
    ∃ s, bufferAndSend 3
        [.input (.item 3), .input (.item 6), .input (.item 9), .tick, .input (.item 12), .done,
          .input (.item 15)] = .ok s ∧
      s.out.Sublist (received
        [.input (.item 3), .input (.item 6), .input (.item 9), .tick, .input (.item 12), .done,
          .input (.item 15)]) :=
  fifo_preservation 3 (by decide) _ (by decide)

/-- C6. Whatever events `bufferAndSend` (buffer size `C ≥ 1`) has taken before, when it takes the
shutdown case it sends every element its buffer holds, oldest first, and then returns with
its output closed and the buffer empty.  With size 5, items 7 and 8 and then shutdown, the
output gets 7 and 8. -/
theorem shutdown_drains (C : Int) (hC : 1 ≤ C) (events : List BufferEvent)
    (hrun : ∀ e ∈ events, e ≠ BufferEvent.done) :
    (∃ s s1, bufferAndSend C events = .ok s ∧ s.running = true ∧ s.closed = false ∧
      s.buffer.Flush = .ok (s.buffer.stored, s1.buffer) ∧
      bufferAndSendStep s .done = .ok s1 ∧ bufferAndSend C (events ++ [.done]) = .ok s1 ∧
      s1.out = s.out ++ s.buffer.stored ∧ s1.buffer.stored = [] ∧
      s1.closed = true ∧ s1.running = false) ∧
    (∃ s1, bufferAndSend 5 [.input (.item 7), .input (.item 8), .done] = .ok s1 ∧
      s1.out = [7, 8] ∧ s1.closed = true ∧ s1.running = false) := by
  obtain ⟨s, h1, h2, h3, h4, h5⟩ := bufferAndSend_running C hC events hrun
  refine ⟨⟨s, _, h1, h3, h4, flush_inRange _ h2, step_done s h2, ?_, rfl, ?_, rfl, rfl⟩,
    ⟨_, rfl, rfl, rfl, rfl⟩⟩
  · rw [h5, step_done s h2]
  · exact stored_of_head_eq_tail _ (drained_inRange _ h2) rfl

theorem shutdown_drains_witness :
    (∃ s s1, bufferAndSend 5 [.input (.item 7), .tick, .input (.item 8), .input (.item 9)]
        = .ok s ∧ s.running = true ∧ s.closed = false ∧
      s.buffer.Flush = .ok (s.buffer.stored, s1.buffer) ∧
      bufferAndSendStep s .done = .ok s1 ∧
      bufferAndSend 5 ([.input (.item 7), .tick, .input (.item 8), .input (.item 9)] ++ [.done])
        = .ok s1 ∧
      s1.out = s.out ++ s.buffer.stored ∧ s1.buffer.stored = [] ∧
      s1.closed = true ∧ s1.running = false) ∧
    (∃ s1, bufferAndSend 5 [.input (.item 7), .input (.item 8), .done] = .ok s1 ∧
      s1.out = [7, 8] ∧ s1.closed = true ∧ s1.running = false) :=
  shutdown_drains 5 (by decide) [.input (.item 7), .tick, .input (.item 8), .input (.item 9)]
    (by decide)

/-- C7. Whatever events `bufferAndSend` (buffer size `C ≥ 1`) has taken before shutdown, a
timer tick sends exactly the elements its buffer holds, oldest first: nothing when the buffer
is empty (`head = tail`, and then nothing changes), all of a non-empty list otherwise; the
buffer is empty afterwards, so a second tick right after sends nothing.  With size 5, items
6, 9, 15 and one tick, the output gets `[6, 9, 15]`. -/
theorem tick_behaviour (C : Int) (hC : 1 ≤ C) (events : List BufferEvent)
    (hrun : ∀ e ∈ events, e ≠ BufferEvent.done) :
    (∃ s s1, bufferAndSend C events = .ok s ∧ bufferAndSendStep s .tick = .ok s1 ∧
      bufferAndSend C (events ++ [.tick]) = .ok s1 ∧
      s1.out = s.out ++ s.buffer.stored ∧
      (s.buffer.head = s.buffer.tail → s1 = s) ∧
      (s.buffer.head ≠ s.buffer.tail → s.buffer.stored ≠ []) ∧
      s1.buffer.head = s1.buffer.tail ∧ s1.buffer.stored = [] ∧ s1.running = true ∧
      bufferAndSendStep s1 .tick = .ok s1) ∧
    (∃ s, bufferAndSend 5 [.input (.item 6), .input (.item 9), .input (.item 15), .tick] = .ok s ∧
      s.out = [6, 9, 15]) := by
  obtain ⟨s, h1, h2, h3, h4, h5⟩ := bufferAndSend_running C hC events hrun
  have hd := drained_inRange _ h2
  have he := stored_of_head_eq_tail _ hd rfl
  refine ⟨⟨s, _, h1, step_tick s h2, ?_, rfl, ?_, stored_ne_nil _ h2, rfl, he, h3, ?_⟩,
    ⟨_, rfl, rfl⟩⟩
  · rw [h5, step_tick s h2]
  · intro h
    cases s
    simp only [stored_of_head_eq_tail _ h2 h, drained_of_head_eq_tail _ h, List.append_nil]
  · rw [step_tick _ hd]
    simp only [he, List.append_nil, drained_of_head_eq_tail _ (show s.buffer.drained.head = s.buffer.drained.tail from rfl)]

theorem tick_behaviour_witness :
    (∃ s s1, bufferAndSend 5 [.input (.item 6), .input (.item 9), .input (.item 15)] = .ok s ∧
      bufferAndSendStep s .tick = .ok s1 ∧
      bufferAndSend 5 ([.input (.item 6), .input (.item 9), .input (.item 15)] ++ [.tick])
        = .ok s1 ∧
      s1.out = s.out ++ s.buffer.stored ∧
      (s.buffer.head = s.buffer.tail → s1 = s) ∧
      (s.buffer.head ≠ s.buffer.tail → s.buffer.stored ≠ []) ∧
      s1.buffer.head = s1.buffer.tail ∧ s1.buffer.stored = [] ∧ s1.running = true ∧
      bufferAndSendStep s1 .tick = .ok s1) ∧
    (∃ s, bufferAndSend 5 [.input (.item 6), .input (.item 9), .input (.item 15), .tick] = .ok s ∧
      s.out = [6, 9, 15]) :=
  tick_behaviour 5 (by decide) [.input (.item 6), .input (.item 9), .input (.item 15)] (by decide)

/-- C9, evaluated: a receive on a closed input binds `n` to 0 and the stage goes on as for an
item 0.  `filterNegative` forwards a 0 for every such receive, and `bufferAndSend` pushes a 0
into its buffer, which the next tick sends on. -/
theorem closed_input_taken_as_zero :
    (filterNegative [.input .closed]).out = [0] ∧
    (filterNegative [.input (.item 4), .input .closed, .input .closed]).out = [4, 0, 0] ∧
    (∃ s, bufferAndSend 5 [.input .closed] = .ok s ∧ s.buffer.stored = [0] ∧
      s.buffer.tail = 1) ∧
    (∃ s, bufferAndSend 5 [.input .closed, .tick] = .ok s ∧ s.out = [0]) := by
  refine ⟨by decide, by decide, ⟨_, rfl, by decide, rfl⟩, ⟨_, rfl, rfl⟩⟩

/-- C10. From an empty in-range state (`head = tail`, at any position) of size `N ≥ 1`,
pushing `xs` in order and then calling `Flush` returns the last `min(len(xs), N - 1)` elements
of `xs` in push order: never more than `N - 1` elements, nothing at all for size 1, and at
most 4 elements for the size `defaultBufferSize`. -/
theorem effective_window (rb : RingBuffer) (hsize : 1 ≤ rb.size)
    (hlen : (rb.data.length : Int) = rb.size) (hhead : 0 ≤ rb.head ∧ rb.head < rb.size)
    (hempty : rb.head = rb.tail) (xs : List Int) :
    ∃ rb1 out rb2, pushAll rb xs = .ok rb1 ∧ rb1.Flush = .ok (out, rb2) ∧
      out = xs.drop (xs.length - min xs.length (rb.size.toNat - 1)) ∧
      (out.length : Int) ≤ rb.size - 1 ∧
      (rb.size = 1 → out = []) ∧
      (rb.size = defaultBufferSize → out.length ≤ 4) := by
  have hr : rb.InRange := ⟨hsize, hlen, hhead.1, hhead.2, hempty ▸ hhead.1, hempty ▸ hhead.2⟩
  obtain ⟨rb1, h1, h2, h3, h4⟩ := pushAll_stored xs rb hr
  rw [stored_of_head_eq_tail rb hr hempty, List.nil_append] at h4
  have hl := stored_length_lt rb1 h2
  rw [h3] at hl
  refine ⟨rb1, rb1.stored, rb1.drained, h1, flush_inRange rb1 h2, ?_, by omega, ?_, ?_⟩
  · rw [h4]
    unfold lastN
    congr 1
    omega
  · intro h
    rw [h] at hl
    exact List.length_eq_zero.mp (by omega)
  · intro h
    rw [h] at hl
    unfold defaultBufferSize at hl
    omega

theorem effective_window_witness :
    ∃ rb1 out rb2, pushAll (RingBuffer.mk [0, 0, 0, 0, 0] 2 2 5) [1, 2, 3, 4, 5, 6] = .ok rb1 ∧
      rb1.Flush = .ok (out, rb2) ∧
      out = [1, 2, 3, 4, 5, 6].drop
        ([1, 2, 3, 4, 5, 6].length - min [1, 2, 3, 4, 5, 6].length ((5 : Int).toNat - 1)) ∧
      (out.length : Int) ≤ 5 - 1 ∧ ((5 : Int) = 1 → out = []) ∧
      ((5 : Int) = defaultBufferSize → out.length ≤ 4) :=
  effective_window (RingBuffer.mk [0, 0, 0, 0, 0] 2 2 5) (by decide) (by decide) (by decide) rfl
    [1, 2, 3, 4, 5, 6]

end Pipeline
